import Mathlib

/-!
Verification of the room membership and progress-coordination engine of the
hackit backend demo (FastAPI + Firestore + Socket.IO).

The Firestore room document is modelled as a `Room` structure; a Python dict
(`participants`, `finished_users`) is modelled as an association list with
distinct keys; the document store (`rooms` collection) is an association list
from room id to `Room`.  Firestore transactions become pure functions from the
current document state (`Option Room`, `none` = document absent) to a result
together with the new document state; a Firestore field-path update
`participants.{uid} = username` becomes `upsert`, and `del d[k]` becomes
`eraseKey`.  `firestore.SERVER_TIMESTAMP` is an opaque `Nat` parameter.
-/

/-- Association-list lookup with decidable key equality (Python `d.get(k)` /
`k in d`). -/
def alookup {α β : Type} [DecidableEq α] (k : α) : List (α × β) → Option β
  | [] => none
  | (a, b) :: rest => if a = k then some b else alookup k rest

/-- Python dict assignment `d[k] = v`: overwrite if present, append if new.
Also models the Firestore field-path update `participants.{uid} = name`. -/
def upsert {α β : Type} [DecidableEq α] (k : α) (v : β) : List (α × β) → List (α × β)
  | [] => [(k, v)]
  | (a, b) :: rest => if a = k then (a, v) :: rest else (a, b) :: upsert k v rest

/-- Python `del d[k]` (keyed deletion). -/
def eraseKey {α β : Type} [DecidableEq α] (k : α) : List (α × β) → List (α × β)
  | [] => []
  | (a, b) :: rest => if a = k then rest else (a, b) :: eraseKey k rest

/-- The keys of an association list (Python `d.keys()`). -/
def keys {α β : Type} (l : List (α × β)) : List α := l.map Prod.fst

/-- A room document (`rooms/{roomId}` in Firestore).  Fields that the code
only writes later (`topic`, `duration`, `status`) are `Option`s, `none` when
the field is absent from the document.  `finished_users` is read everywhere
via `room_data.get('finished_users', {})`, so an absent field and an empty
map are indistinguishable and we use the empty list for both. -/
structure Room where
  creator_uid : String
  participants : List (String × String)
  finished_users : List (String × Bool)
  topic : Option String
  duration : Option Int
  status : Option String
  createdAt : Nat
deriving Repr, DecidableEq

/-- The `rooms` collection: room id → document. -/
abbrev RoomStore := List (String × Room)

/-- Number of participants of a (possibly absent) room document. -/
def roomSize : Option Room → Nat
  | none => 0
  | some room => room.participants.length

namespace Api

/-- Result of the join transaction in `api.py` (`{"error": "not_found"}`,
`{"error": "full"}`, or `{}` for success). -/
inductive JoinTxResult
  | not_found
  | full
  | ok
deriving Repr, DecidableEq

/-- `update_in_transaction` inside `join_room` (`src/api.py` lines 100-118):
read the snapshot; absent document → `not_found`; if the uid is not already a
participant and there are already ≥ 5 participants → `full`; otherwise upsert
`participants.{uid} = username`. -/
def update_in_transaction (room? : Option Room) (uid username : String) :
    JoinTxResult × Option Room :=
  match room? with
  | none => (.not_found, none)
  | some room =>
    let participants := room.participants
    if (alookup uid participants).isNone ∧ 5 ≤ participants.length then
      (.full, some room)
    else
      (.ok, some { room with participants := upsert uid username participants })

/-- HTTP-level outcome of `POST /join_room` (404, 403, or 200 with the room
id echoed back). -/
inductive JoinOutcome
  | notFound
  | roomFull
  | joined (roomId : String)
deriving Repr, DecidableEq

/-- `join_room` (`src/api.py` lines 94-130): run the transaction against the
addressed document and map the transaction result to the HTTP response. -/
def join_room (store : RoomStore) (roomId uid username : String) :
    JoinOutcome × RoomStore :=
  match update_in_transaction (alookup roomId store) uid username with
  | (.not_found, _) => (.notFound, store)
  | (.full, _) => (.roomFull, store)
  | (.ok, room?new) =>
    match room?new with
    | none => (.joined roomId, store)
    | some room => (.joined roomId, upsert roomId room store)

/-- Outcome of `POST /create_room`.  `noFreshId` models exhaustion of the
supplied random draws (the Python `while True` loop would still be running). -/
inductive CreateResult
  | invalidInput
  | noFreshId
  | created (roomId : String)
deriving Repr, DecidableEq

/-- The id-generation loop of `create_room` (`src/api.py` lines 68-73):
repeatedly draw `random.randint(10000, 99999)` and stop at the first id with
no existing document.  The stream of random draws is an explicit list. -/
def gen_room_id (store : RoomStore) : List Nat → Option String
  | [] => none
  | n :: rest =>
    let room_id := toString n
    if (alookup room_id store).isNone then some room_id else gen_room_id store rest

/-- The document written by `room_ref.set` in `create_room` (`src/api.py`
lines 76-82): only `creator_uid`, `participants` and `createdAt` are set. -/
def newRoom (uid username : String) (now : Nat) : Room :=
  { creator_uid := uid
    participants := [(uid, username)]
    finished_users := []
    topic := none
    duration := none
    status := none
    createdAt := now }

/-- `create_room` (`src/api.py` lines 59-91): reject an empty username with
HTTP 400, otherwise generate a fresh id and write the new document. -/
def create_room (store : RoomStore) (username uid : String) (draws : List Nat)
    (now : Nat) : CreateResult × RoomStore :=
  if username = "" then (.invalidInput, store)
  else
    match gen_room_id store draws with
    | none => (.noFreshId, store)
    | some room_id => (.created room_id, upsert room_id (newRoom uid username now) store)

end Api

namespace Main

/-- `update_in_transaction` inside `join_room` of `src/main.py` (lines
87-105), textually identical to the one in `src/api.py`. -/
def update_in_transaction (room? : Option Room) (uid username : String) :
    Api.JoinTxResult × Option Room :=
  match room? with
  | none => (.not_found, none)
  | some room =>
    let participants := room.participants
    if (alookup uid participants).isNone ∧ 5 ≤ participants.length then
      (.full, some room)
    else
      (.ok, some { room with participants := upsert uid username participants })

end Main

namespace Ws

/-- Status strings returned by `leave_in_transaction` in `src/ws_server.py`. -/
inductive LeaveStatus
  | not_found
  | host_left
  | deleted_empty
  | updated
deriving Repr, DecidableEq

/-- `leave_in_transaction` (`src/ws_server.py` lines 89-115): absent document
→ `not_found`; the creator leaving deletes the document (`host_left`); an
ordinary uid is removed from `participants` if present, after which an empty
map deletes the document (`deleted_empty`) and a non-empty one is written
back (`updated`). -/
def leave_in_transaction (room? : Option Room) (uid_to_remove : String) :
    LeaveStatus × Option Room :=
  match room? with
  | none => (.not_found, none)
  | some room =>
    if uid_to_remove = room.creator_uid then
      (.host_left, none)
    else
      let participants :=
        if (alookup uid_to_remove room.participants).isSome then
          eraseKey uid_to_remove room.participants
        else room.participants
      if participants.isEmpty then
        (.deleted_empty, none)
      else
        (.updated, some { room with participants := participants })

/-- The dict returned by the finish-step transaction
(`{'finished_count': ..., 'total_participants': ...}`). -/
structure FinishResult where
  finished_count : Nat
  total_participants : Nat
deriving Repr, DecidableEq

/-- `update_in_transaction` inside `handle_finish_step` (`src/ws_server.py`
lines 189-212): absent document → `None`; otherwise set
`finished_users[uid] = True` on the in-memory copy, compute both counts from
the post-update in-memory copies, write `finished_users` back and return the
counts. -/
def update_in_transaction (room? : Option Room) (user_uid : String) :
    Option FinishResult × Option Room :=
  match room? with
  | none => (none, none)
  | some room =>
    let participants_map := room.participants
    let finished_users_map := upsert user_uid true room.finished_users
    let participants_count := participants_map.length
    let finished_count := finished_users_map.length
    (some { finished_count := finished_count, total_participants := participants_count },
      some { room with finished_users := finished_users_map })

/-- `handle_reset_progress` (`src/ws_server.py` lines 227-240): blind
`room_ref.update({'finished_users': {}})`.  A Firestore `update` on an absent
document raises (the handler catches and logs), so an absent room is left
absent and nothing is written. -/
def handle_reset_progress (room? : Option Room) : Option Room :=
  match room? with
  | none => none
  | some room => some { room with finished_users := [] }

end Ws

/-- `update_room_settings` (`src/api.py` lines 140-155): blind field update
setting `topic`, `duration` and `status = 'discussing'`; raises on an absent
document (caught by the handler), leaving the store unchanged. -/
def update_room_settings (room? : Option Room) (topic : String) (duration : Int) :
    Option Room :=
  match room? with
  | none => none
  | some room =>
    some { room with topic := some topic, duration := some duration,
                     status := some "discussing" }

/-- One operation on a single room document, for stating lifecycle
invariants over arbitrary operation sequences. -/
inductive RoomOp
  | join (uid username : String)
  | leave (uid : String)
  | finish (uid : String)
  | reset
  | settings (topic : String) (duration : Int)
deriving Repr, DecidableEq

/-- Apply one operation to the room document (keeping only the document
state, not the returned value). -/
def applyOp (room? : Option Room) : RoomOp → Option Room
  | .join uid username => (Api.update_in_transaction room? uid username).2
  | .leave uid => (Ws.leave_in_transaction room? uid).2
  | .finish uid => (Ws.update_in_transaction room? uid).2
  | .reset => Ws.handle_reset_progress room?
  | .settings topic duration => update_room_settings room? topic duration

/-- Apply a sequence of operations in order. -/
def applyOps (room? : Option Room) : List RoomOp → Option Room
  | [] => room?
  | op :: rest => applyOps (applyOp room? op) rest

section AssocLemmas

variable {α β : Type} [DecidableEq α]

theorem alookup_upsert_self (k : α) (v : β) (l : List (α × β)) :
    alookup k (upsert k v l) = some v := by
  induction l with
  | nil => simp [upsert, alookup]
  | cons p rest ih =>
    obtain ⟨a, b⟩ := p
    by_cases h : a = k
    · subst h; simp [upsert, alookup]
    · simp [upsert, alookup, h, ih]

theorem alookup_upsert_ne {k k' : α} (h : k' ≠ k) (v : β) (l : List (α × β)) :
    alookup k' (upsert k v l) = alookup k' l := by
  have h' : k ≠ k' := Ne.symm h
  induction l with
  | nil => simp [upsert, alookup, h']
  | cons p rest ih =>
    obtain ⟨a, b⟩ := p
    by_cases ha : a = k
    · subst ha
      simp [upsert, alookup, h']
    · by_cases ha' : a = k'
      · subst ha'; simp [upsert, alookup, ha]
      · simp [upsert, alookup, ha, ha', ih]

theorem length_upsert (k : α) (v : β) (l : List (α × β)) :
    (upsert k v l).length =
      if (alookup k l).isSome then l.length else l.length + 1 := by
  induction l with
  | nil => simp [upsert, alookup]
  | cons p rest ih =>
    obtain ⟨a, b⟩ := p
    by_cases h : a = k
    · subst h; simp [upsert, alookup]
    · simp [upsert, alookup, h, ih]
      split <;> simp

theorem length_upsert_le (k : α) (v : β) (l : List (α × β)) :
    (upsert k v l).length ≤ l.length + 1 := by
  rw [length_upsert]
  split <;> omega

theorem mem_keys_iff_alookup (k : α) (l : List (α × β)) :
    k ∈ keys l ↔ (alookup k l).isSome := by
  induction l with
  | nil => simp [keys, alookup]
  | cons p rest ih =>
    obtain ⟨a, b⟩ := p
    by_cases h : a = k
    · subst h
      simp only [keys, List.map_cons, List.mem_cons, alookup, if_pos rfl]
      simp
    · have h' : ¬k = a := fun hk => h hk.symm
      simp only [keys, List.map_cons, List.mem_cons, alookup, if_neg h]
      rw [or_iff_right h']
      exact ih

theorem alookup_eq_none_iff (k : α) (l : List (α × β)) :
    alookup k l = none ↔ k ∉ keys l := by
  rw [mem_keys_iff_alookup, Option.isSome_iff_exists]
  cases alookup k l <;> simp

omit [DecidableEq α] in
theorem keys_cons (a : α) (b : β) (l : List (α × β)) :
    keys ((a, b) :: l) = a :: keys l := rfl

theorem keys_upsert (k : α) (v : β) (l : List (α × β)) :
    keys (upsert k v l) = if k ∈ keys l then keys l else keys l ++ [k] := by
  induction l with
  | nil => simp [upsert, keys]
  | cons p rest ih =>
    obtain ⟨a, b⟩ := p
    by_cases h : a = k
    · subst h
      rw [show upsert a v ((a, b) :: rest) = (a, v) :: rest from by simp [upsert]]
      rw [keys_cons, keys_cons, if_pos (List.mem_cons_self a _)]
    · have h' : ¬k = a := fun hk => h hk.symm
      rw [show upsert k v ((a, b) :: rest) = (a, b) :: upsert k v rest from by
        simp [upsert, h]]
      rw [keys_cons, keys_cons, ih]
      by_cases hm : k ∈ keys rest
      · rw [if_pos hm, if_pos (List.mem_cons.mpr (Or.inr hm))]
      · have hnot : k ∉ a :: keys rest := by
          intro hk
          rcases List.mem_cons.mp hk with hk | hk
          · exact h' hk
          · exact hm hk
        rw [if_neg hm, if_neg hnot, List.cons_append]

theorem eraseKey_of_alookup_none {k : α} {l : List (α × β)}
    (h : alookup k l = none) : eraseKey k l = l := by
  induction l with
  | nil => rfl
  | cons p rest ih =>
    obtain ⟨a, b⟩ := p
    by_cases ha : a = k
    · subst ha; simp [alookup] at h
    · simp [alookup, ha] at h
      simp [eraseKey, ha, ih h]

theorem length_eraseKey_le (k : α) (l : List (α × β)) :
    (eraseKey k l).length ≤ l.length := by
  induction l with
  | nil => simp [eraseKey]
  | cons p rest ih =>
    obtain ⟨a, b⟩ := p
    by_cases h : a = k
    · simp only [eraseKey, if_pos h, List.length_cons]
      omega
    · simp only [eraseKey, if_neg h, List.length_cons]
      omega

theorem alookup_eraseKey_self {k : α} {l : List (α × β)}
    (h : (keys l).Nodup) : alookup k (eraseKey k l) = none := by
  induction l with
  | nil => rfl
  | cons p rest ih =>
    obtain ⟨a, b⟩ := p
    simp only [keys, List.map_cons, List.nodup_cons] at h
    by_cases ha : a = k
    · subst ha
      simp only [eraseKey, if_pos rfl]
      rw [alookup_eq_none_iff]
      exact h.1
    · simp [eraseKey, ha, alookup, ih h.2]

theorem alookup_eraseKey_ne {k k' : α} (h : k' ≠ k) (l : List (α × β)) :
    alookup k' (eraseKey k l) = alookup k' l := by
  induction l with
  | nil => rfl
  | cons p rest ih =>
    obtain ⟨a, b⟩ := p
    by_cases ha : a = k
    · subst ha
      have : a ≠ k' := fun hk => h hk.symm
      simp [eraseKey, alookup, this]
    · by_cases ha' : a = k'
      · subst ha'; simp [eraseKey, alookup, ha]
      · simp [eraseKey, alookup, ha, ha', ih]

omit [DecidableEq α] in
theorem length_keys (l : List (α × β)) : (keys l).length = l.length := by
  simp [keys]

end AssocLemmas

/-- The finished-users map after a sequence of finish-step calls, one per
uid in the list (the in-transaction update `finished_users_map[uid] = True`
folded over the callers). -/
def finishFold (fus : List (String × Bool)) (uids : List String) : List (String × Bool) :=
  uids.foldl (fun m u => upsert u true m) fus

/-- Run the finish-step transaction once for each uid in the list, in order,
returning the result dict of the last call together with the final document
state. -/
def runFinishSeq (acc : Option Ws.FinishResult) (room? : Option Room) :
    List String → Option Ws.FinishResult × Option Room
  | [] => (acc, room?)
  | u :: rest =>
    let step := Ws.update_in_transaction room? u
    runFinishSeq step.1 step.2 rest

/-- A one-participant room, as written by `create_room`, used to instantiate
theorems at concrete inputs. -/
def sampleRoom1 : Room := Api.newRoom "u1" "Alice" 0

/-- A full room (five participants), used to instantiate theorems at concrete
inputs. -/
def sampleRoom5 : Room :=
  { creator_uid := "u1"
    participants := [("u1", "A"), ("u2", "B"), ("u3", "C"), ("u4", "D"), ("u5", "E")]
    finished_users := []
    topic := none
    duration := none
    status := none
    createdAt := 0 }

/-- Claim C2.  The join endpoint, as a transaction on the addressed document:
an absent document fails with `notFound` and writes nothing; a new identity
against a full (≥ 5) room fails with `roomFull` and writes nothing; otherwise
it succeeds returning the room id, the stored document maps the identity to
the supplied name, every other participant entry is unchanged, the creator is
unchanged, and no other document of the store is touched. -/
theorem join_contract (store : RoomStore) (roomId uid username : String) :
    (alookup roomId store = none →
      Api.join_room store roomId uid username = (.notFound, store)) ∧
    (∀ room : Room, alookup roomId store = some room →
      ((alookup uid room.participants = none ∧ 5 ≤ room.participants.length) →
        Api.join_room store roomId uid username = (.roomFull, store)) ∧
      (((alookup uid room.participants).isSome ∨ room.participants.length < 5) →
        (Api.join_room store roomId uid username).1 = .joined roomId ∧
        ∃ room' : Room,
          alookup roomId (Api.join_room store roomId uid username).2 = some room' ∧
          alookup uid room'.participants = some username ∧
          (∀ k, k ≠ uid → alookup k room'.participants = alookup k room.participants) ∧
          room'.creator_uid = room.creator_uid ∧
          ∀ rid, rid ≠ roomId →
            alookup rid (Api.join_room store roomId uid username).2 = alookup rid store)) := by
  refine ⟨?_, ?_⟩
  · intro h
    simp [Api.join_room, Api.update_in_transaction, h]
  · intro room hroom
    refine ⟨?_, ?_⟩
    · rintro ⟨hnone, h5⟩
      have htx : Api.update_in_transaction (some room) uid username = (.full, some room) := by
        simp [Api.update_in_transaction, hnone, h5]
      simp [Api.join_room, hroom, htx]
    · intro hok
      have hguard :
          ¬((alookup uid room.participants).isNone ∧ 5 ≤ room.participants.length) := by
        rintro ⟨h1, h2⟩
        rcases hok with hs | hlt
        · rw [Option.isNone_iff_eq_none] at h1
          rw [h1] at hs
          simp at hs
        · omega
      have htx : Api.update_in_transaction (some room) uid username =
          (.ok, some { room with participants := upsert uid username room.participants }) := by
        simp only [Api.update_in_transaction]
        rw [if_neg hguard]
      refine ⟨?_, { room with participants := upsert uid username room.participants },
        ?_, ?_, ?_, rfl, ?_⟩
      · simp [Api.join_room, hroom, htx]
      · simp only [Api.join_room, hroom, htx]
        exact alookup_upsert_self roomId _ store
      · exact alookup_upsert_self uid username room.participants
      · intro k hk
        exact alookup_upsert_ne hk username room.participants
      · intro rid hrid
        simp only [Api.join_room, hroom, htx]
        exact alookup_upsert_ne hrid _ store

/-- Witness for C2: joining an absent room fails with `notFound`; a sixth
distinct identity against a full room fails with `roomFull`; a third identity
joining a one-participant room succeeds and is stored under its name. -/
theorem join_contract_witness :
    Api.join_room [] "99999" "u1" "A" = (.notFound, []) ∧
    Api.join_room [("12345", sampleRoom5)] "12345" "u6" "Zoe" =
      (.roomFull, [("12345", sampleRoom5)]) ∧
    (Api.join_room [("11111", sampleRoom1)] "11111" "u2" "Bob").1 = .joined "11111" := by
  refine ⟨?_, ?_, ?_⟩
  · exact (join_contract [] "99999" "u1" "A").1 rfl
  · exact ((join_contract [("12345", sampleRoom5)] "12345" "u6" "Zoe").2 sampleRoom5
      rfl).1 ⟨rfl, by decide⟩
  · exact (((join_contract [("11111", sampleRoom1)] "11111" "u2" "Bob").2 sampleRoom1
      rfl).2 (Or.inr (by decide))).1

/-- Claim C4.  Re-joining with an identity already present is idempotent: the
transaction succeeds, the participant count is unchanged, the stored display
name for that identity becomes the latest supplied value, and every other
entry is unchanged.  The join transaction of `src/main.py` is the same
function as the one of `src/api.py`. -/
theorem rejoin_idempotent :
    Main.update_in_transaction = Api.update_in_transaction ∧
    ∀ (room : Room) (uid oldName newName : String),
      alookup uid room.participants = some oldName →
      ∃ room' : Room,
        Api.update_in_transaction (some room) uid newName = (.ok, some room') ∧
        room'.participants.length = room.participants.length ∧
        alookup uid room'.participants = some newName ∧
        ∀ k, k ≠ uid → alookup k room'.participants = alookup k room.participants := by
  refine ⟨rfl, ?_⟩
  intro room uid oldName newName h
  have hsome : (alookup uid room.participants).isSome := by rw [h]; rfl
  have hguard :
      ¬((alookup uid room.participants).isNone ∧ 5 ≤ room.participants.length) := by
    rintro ⟨h1, _⟩
    rw [Option.isNone_iff_eq_none, h] at h1
    cases h1
  refine ⟨{ room with participants := upsert uid newName room.participants }, ?_, ?_, ?_, ?_⟩
  · simp only [Api.update_in_transaction]
    rw [if_neg hguard]
  · simp only [length_upsert, hsome, if_pos]
  · exact alookup_upsert_self uid newName room.participants
  · intro k hk
    exact alookup_upsert_ne hk newName room.participants

/-- Witness for C4: the creator of a fresh room re-joins with a new display
name; the count stays 1 and the stored name becomes the new one. -/
theorem rejoin_idempotent_witness :
    ∃ room' : Room,
      Api.update_in_transaction (some sampleRoom1) "u1" "Alicia" = (.ok, some room') ∧
      room'.participants.length = sampleRoom1.participants.length ∧
      alookup "u1" room'.participants = some "Alicia" ∧
      ∀ k, k ≠ "u1" → alookup k room'.participants = alookup k sampleRoom1.participants :=
  rejoin_idempotent.2 sampleRoom1 "u1" "Alice" "Alicia" rfl

/-- Claim C10.  Leaving an existing room with an identity that is neither the
creator nor a participant (the participants map being non-empty) is a silent
no-op: the transaction reports `updated` and writes the document back
unchanged. -/
theorem leave_nonmember_noop (room : Room) (uid : String)
    (hcreator : uid ≠ room.creator_uid)
    (hmem : alookup uid room.participants = none)
    (hne : room.participants ≠ []) :
    Ws.leave_in_transaction (some room) uid = (.updated, some room) := by
  simp only [Ws.leave_in_transaction]
  rw [if_neg hcreator]
  have h1 : (alookup uid room.participants).isSome = false := by
    rw [hmem]; rfl
  simp only [h1, Bool.false_eq_true, if_false]
  have h2 : room.participants.isEmpty = false := by
    cases hp : room.participants with
    | nil => exact absurd hp hne
    | cons a l => rfl
  simp only [h2, Bool.false_eq_true, if_false]

/-- Witness for C10: identity `u9` is not in the full sample room and is not
its creator; leaving reports `updated` and the document is unchanged. -/
theorem leave_nonmember_noop_witness :
    Ws.leave_in_transaction (some sampleRoom5) "u9" = (.updated, some sampleRoom5) :=
  leave_nonmember_noop sampleRoom5 "u9" (by decide) rfl (by decide)

/-- In the non-creator branch of the leave transaction the resulting
participants map is always `eraseKey uid participants`: the code deletes the
key only when present, and deletion of an absent key is the identity. -/
theorem leave_in_transaction_noncreator (room : Room) (uid : String)
    (hcreator : uid ≠ room.creator_uid) :
    Ws.leave_in_transaction (some room) uid =
      (if (eraseKey uid room.participants).isEmpty then (.deleted_empty, none)
       else (.updated, some { room with participants := eraseKey uid room.participants })) := by
  simp only [Ws.leave_in_transaction]
  rw [if_neg hcreator]
  cases hl : alookup uid room.participants with
  | none =>
    have h1 : (alookup uid room.participants).isSome = false := by rw [hl]; rfl
    simp [h1, eraseKey_of_alookup_none hl]
  | some v =>
    have h1 : (alookup uid room.participants).isSome = true := by rw [hl]; rfl
    simp [h1]

/-- Claim C3.  The leave transaction: an absent room reports `not_found` and
writes nothing; the creator leaving deletes the document (`host_left`)
however many participants remain; any other identity is removed from the
participants map, after which an empty map deletes the document
(`deleted_empty`) and a non-empty one is written back (`updated`) with the
leaving identity absent, all other entries intact and the creator
unchanged. -/
theorem leave_contract (uid : String) :
    (Ws.leave_in_transaction none uid = (.not_found, none)) ∧
    (∀ room : Room, uid = room.creator_uid →
      Ws.leave_in_transaction (some room) uid = (.host_left, none)) ∧
    (∀ room : Room, uid ≠ room.creator_uid → (keys room.participants).Nodup →
      (eraseKey uid room.participants = [] →
        Ws.leave_in_transaction (some room) uid = (.deleted_empty, none)) ∧
      (eraseKey uid room.participants ≠ [] →
        ∃ room' : Room,
          Ws.leave_in_transaction (some room) uid = (.updated, some room') ∧
          alookup uid room'.participants = none ∧
          (∀ k, k ≠ uid → alookup k room'.participants = alookup k room.participants) ∧
          room'.creator_uid = room.creator_uid)) := by
  refine ⟨rfl, ?_, ?_⟩
  · intro room h
    simp only [Ws.leave_in_transaction]
    rw [if_pos h]
  · intro room hcreator hnodup
    refine ⟨?_, ?_⟩
    · intro hempty
      rw [leave_in_transaction_noncreator room uid hcreator, hempty]
      rfl
    · intro hne
      have hempty : (eraseKey uid room.participants).isEmpty = false := by
        cases hp : eraseKey uid room.participants with
        | nil => exact absurd hp hne
        | cons a l => rfl
      refine ⟨{ room with participants := eraseKey uid room.participants }, ?_, ?_, ?_, rfl⟩
      · rw [leave_in_transaction_noncreator room uid hcreator, hempty]
        rfl
      · exact alookup_eraseKey_self hnodup
      · intro k hk
        exact alookup_eraseKey_ne hk room.participants

/-- Witness for C3: on the five-participant sample room, the creator leaving
deletes the room, and participant `u3` leaving yields `updated` with `u3`
gone and the others intact; on a one-participant room, the sole non-creator
member leaving a room created by `host` deletes it as `deleted_empty`. -/
theorem leave_contract_witness :
    Ws.leave_in_transaction (some sampleRoom5) "u1" = (.host_left, none) ∧
    (∃ room' : Room,
      Ws.leave_in_transaction (some sampleRoom5) "u3" = (.updated, some room') ∧
      alookup "u3" room'.participants = none ∧
      (∀ k, k ≠ "u3" → alookup k room'.participants = alookup k sampleRoom5.participants) ∧
      room'.creator_uid = sampleRoom5.creator_uid) ∧
    Ws.leave_in_transaction
      (some { sampleRoom1 with creator_uid := "host" }) "u1" = (.deleted_empty, none) := by
  refine ⟨?_, ?_, ?_⟩
  · exact (leave_contract "u1").2.1 sampleRoom5 rfl
  · exact (((leave_contract "u3").2.2 sampleRoom5 (by decide) (by decide)).2 (by decide))
  · exact (((leave_contract "u1").2.2 { sampleRoom1 with creator_uid := "host" }
      (by decide) (by decide)).1 (by decide))

/-- One step of any room operation keeps the participant count at or below
five. -/
theorem roomSize_applyOp_le (room? : Option Room) (op : RoomOp)
    (h : roomSize room? ≤ 5) : roomSize (applyOp room? op) ≤ 5 := by
  cases room? with
  | none =>
    cases op <;> simp [applyOp, Api.update_in_transaction, Ws.leave_in_transaction,
      Ws.update_in_transaction, Ws.handle_reset_progress, update_room_settings, roomSize]
  | some room =>
    simp only [roomSize] at h
    cases op with
    | join uid username =>
      simp only [applyOp, Api.update_in_transaction]
      by_cases hguard : (alookup uid room.participants).isNone ∧ 5 ≤ room.participants.length
      · rw [if_pos hguard]
        exact h
      · rw [if_neg hguard]
        simp only [roomSize, length_upsert]
        cases hs : (alookup uid room.participants).isSome with
        | true => simp only [if_pos]; exact h
        | false =>
          have hnone : (alookup uid room.participants).isNone := by
            cases hv : alookup uid room.participants with
            | none => rfl
            | some v => rw [hv] at hs; cases hs
          have hlt : ¬5 ≤ room.participants.length := fun h5 => hguard ⟨hnone, h5⟩
          simp only [hs, Bool.false_eq_true, if_false]
          omega
    | leave uid =>
      simp only [applyOp]
      by_cases hc : uid = room.creator_uid
      · simp only [Ws.leave_in_transaction]
        rw [if_pos hc]
        simp [roomSize]
      · rw [leave_in_transaction_noncreator room uid hc]
        by_cases he : (eraseKey uid room.participants).isEmpty
        · rw [if_pos he]
          simp [roomSize]
        · rw [if_neg he]
          simp only [roomSize]
          exact le_trans (length_eraseKey_le uid room.participants) h
    | finish uid => simpa [applyOp, Ws.update_in_transaction, roomSize] using h
    | reset => simpa [applyOp, Ws.handle_reset_progress, roomSize] using h
    | settings topic duration => simpa [applyOp, update_room_settings, roomSize] using h

/-- Any sequence of room operations keeps the participant count at or below
five. -/
theorem roomSize_applyOps_le (room? : Option Room) (h : roomSize room? ≤ 5) :
    ∀ ops : List RoomOp, roomSize (applyOps room? ops) ≤ 5
  | [] => h
  | op :: rest => roomSize_applyOps_le _ (roomSize_applyOp_le room? op h) rest

/-- Claim C1.  Starting from a freshly created room, every sequence of room
operations keeps the participants map at size ≤ 5; a join by a new identity
when the count is exactly 5 fails with `full` and leaves the document
unchanged; and a re-join by a present identity always succeeds with the
count unchanged, whatever the count is. -/
theorem participants_cap :
    (∀ (uid username : String) (now : Nat) (ops : List RoomOp),
      roomSize (applyOps (some (Api.newRoom uid username now)) ops) ≤ 5) ∧
    (∀ (room : Room) (uid username : String),
      alookup uid room.participants = none → room.participants.length = 5 →
      Api.update_in_transaction (some room) uid username = (.full, some room)) ∧
    (∀ (room : Room) (uid username : String),
      (alookup uid room.participants).isSome →
      (Api.update_in_transaction (some room) uid username).1 = .ok ∧
      roomSize (Api.update_in_transaction (some room) uid username).2 =
        room.participants.length) := by
  refine ⟨?_, ?_, ?_⟩
  · intro uid username now ops
    exact roomSize_applyOps_le _ (by simp [roomSize, Api.newRoom]) ops
  · intro room uid username hnone h5
    have hguard : (alookup uid room.participants).isNone ∧ 5 ≤ room.participants.length := by
      constructor
      · rw [hnone]; rfl
      · omega
    simp only [Api.update_in_transaction]
    rw [if_pos hguard]
  · intro room uid username hsome
    have hguard :
        ¬((alookup uid room.participants).isNone ∧ 5 ≤ room.participants.length) := by
      rintro ⟨h1, _⟩
      rw [Option.isNone_iff_eq_none] at h1
      rw [h1] at hsome
      cases hsome
    simp only [Api.update_in_transaction]
    rw [if_neg hguard]
    refine ⟨rfl, ?_⟩
    simp only [roomSize, length_upsert, hsome, if_pos]

theorem finishFold_cons (fus : List (String × Bool)) (u : String) (rest : List String) :
    finishFold fus (u :: rest) = finishFold (upsert u true fus) rest := rfl

theorem nodup_keys_upsert {α β : Type} [DecidableEq α] (k : α) (v : β)
    {l : List (α × β)} (h : (keys l).Nodup) : (keys (upsert k v l)).Nodup := by
  rw [keys_upsert]
  split
  · exact h
  · rename_i hm
    rw [List.nodup_append]
    exact ⟨h, List.nodup_singleton k, by simpa using hm⟩

theorem toFinset_keys_upsert {α β : Type} [DecidableEq α] (k : α) (v : β)
    (l : List (α × β)) :
    (keys (upsert k v l)).toFinset = insert k (keys l).toFinset := by
  rw [keys_upsert]
  split
  · rename_i hm
    rw [Finset.insert_eq_self.mpr (List.mem_toFinset.mpr hm)]
  · ext x
    simp [or_comm]

theorem nodup_keys_finishFold (fus : List (String × Bool)) (uids : List String)
    (h : (keys fus).Nodup) : (keys (finishFold fus uids)).Nodup := by
  induction uids generalizing fus with
  | nil => exact h
  | cons u rest ih => exact ih _ (nodup_keys_upsert u true h)

theorem toFinset_keys_finishFold (fus : List (String × Bool)) (uids : List String) :
    (keys (finishFold fus uids)).toFinset = (keys fus).toFinset ∪ uids.toFinset := by
  induction uids generalizing fus with
  | nil => simp [finishFold]
  | cons u rest ih =>
    rw [finishFold_cons, ih, toFinset_keys_upsert, List.toFinset_cons]
    ext x
    simp only [Finset.mem_union, Finset.mem_insert, List.mem_toFinset]
    tauto

/-- After every uid of a deduplicated list has gone through the finish-step
update, the size of the finished-users map is the length of the list,
provided the initial finished keys were distinct and all drawn from the
list. -/
theorem length_finishFold (fus : List (String × Bool)) (uids : List String)
    (hf : (keys fus).Nodup) (hu : uids.Nodup)
    (hsub : ∀ k ∈ keys fus, k ∈ uids) :
    (finishFold fus uids).length = uids.length := by
  have h2 : (keys (finishFold fus uids)).Nodup := nodup_keys_finishFold fus uids hf
  rw [← length_keys, ← List.toFinset_card_of_nodup h2, toFinset_keys_finishFold]
  have hU : (keys fus).toFinset ∪ uids.toFinset = uids.toFinset := by
    rw [Finset.union_eq_right]
    intro x hx
    exact List.mem_toFinset.mpr (hsub x (List.mem_toFinset.mp hx))
  rw [hU, List.toFinset_card_of_nodup hu]

/-- Closed form of a non-empty finish-step sequence on an existing room: the
last call returns the size of the folded finished-users map and the
(untouched) participant count, and the final document carries the folded
map. -/
theorem runFinishSeq_some (uids : List String) (hne : uids ≠ []) (room : Room)
    (acc : Option Ws.FinishResult) :
    runFinishSeq acc (some room) uids =
      (some { finished_count := (finishFold room.finished_users uids).length,
              total_participants := room.participants.length },
       some { room with finished_users := finishFold room.finished_users uids }) := by
  induction uids generalizing room acc with
  | nil => exact absurd rfl hne
  | cons u rest ih =>
    cases rest with
    | nil => simp [runFinishSeq, Ws.update_in_transaction, finishFold]
    | cons v rest' =>
      rw [show runFinishSeq acc (some room) (u :: v :: rest') =
          runFinishSeq (Ws.update_in_transaction (some room) u).1
            (Ws.update_in_transaction (some room) u).2 (v :: rest') from rfl]
      rw [show (Ws.update_in_transaction (some room) u).2 =
          some { room with finished_users := upsert u true room.finished_users } from rfl]
      rw [ih (by simp) _ _]
      rfl

/-- Claim C6 (amended).  Each finish-step call on an existing room marks the
caller finished and returns the two counts computed from the post-update
in-memory maps; and when every previously finished identity is still a
participant, one call per participant ends with the last call reporting
`finished_count = total_participants`. -/
theorem finish_step_counts :
    (∀ (room : Room) (uid : String),
      Ws.update_in_transaction (some room) uid =
        (some { finished_count := (upsert uid true room.finished_users).length,
                total_participants := room.participants.length },
         some { room with finished_users := upsert uid true room.finished_users }) ∧
      alookup uid (upsert uid true room.finished_users) = some true) ∧
    (∀ room : Room,
      (keys room.finished_users).Nodup →
      (keys room.participants).Nodup →
      (∀ k ∈ keys room.finished_users, k ∈ keys room.participants) →
      room.participants ≠ [] →
      ∃ res : Ws.FinishResult,
        (runFinishSeq none (some room) (keys room.participants)).1 = some res ∧
        res.finished_count = res.total_participants) := by
  refine ⟨?_, ?_⟩
  · intro room uid
    exact ⟨rfl, alookup_upsert_self uid true room.finished_users⟩
  · intro room hf hp hsub hne
    have hkne : keys room.participants ≠ [] := by
      intro h
      apply hne
      cases hp' : room.participants with
      | nil => rfl
      | cons a l => rw [hp'] at h; cases h
    rw [runFinishSeq_some (keys room.participants) hkne room none]
    refine ⟨_, rfl, ?_⟩
    simp only [length_finishFold room.finished_users (keys room.participants) hf hp hsub,
      length_keys]

/-- Witness for C6: on the five-participant sample room with no one finished
yet, a finish-step call by each of the five participants ends with the last
call reporting equal counts. -/
theorem finish_step_counts_witness :
    ∃ res : Ws.FinishResult,
      (runFinishSeq none (some sampleRoom5) (keys sampleRoom5.participants)).1 = some res ∧
      res.finished_count = res.total_participants :=
  finish_step_counts.2 sampleRoom5 (by decide) (by decide) (by decide) (by decide)

/-- A room whose finished-users map holds a stale identity that is no longer
(or never was) a participant. -/
def staleRoom : Room :=
  { creator_uid := "u1"
    participants := [("u1", "A")]
    finished_users := [("ghost", true)]
    topic := none
    duration := none
    status := none
    createdAt := 0 }

/-- Counterexample to C6 as stated: on an existing room whose finished-users
map holds a stale identity, one finish-step call by each (i.e. the only)
current participant returns `finished_count = 2` but `total_participants =
1`, so the two counts differ. -/
theorem finish_step_counts_counterexample :
    (runFinishSeq none (some staleRoom) (keys staleRoom.participants)).1 =
      some { finished_count := 2, total_participants := 1 } ∧
    (2 : Nat) ≠ 1 := by
  exact ⟨rfl, by decide⟩

/-- Claim C7.  Reset-progress unconditionally overwrites the finished-users
map of an existing room with the empty map, and an immediately following
finish-step call by any single identity returns `finished_count = 1`. -/
theorem reset_then_finish (room : Room) (uid : String) :
    Ws.handle_reset_progress (some room) = some { room with finished_users := [] } ∧
    (Ws.update_in_transaction (Ws.handle_reset_progress (some room)) uid).1 =
      some { finished_count := 1, total_participants := room.participants.length } :=
  ⟨rfl, rfl⟩

/-- Claim C8 (amended).  A finish-step commit adds exactly the calling
identity to the finished keys; hence, when every previously finished
identity is a participant and the caller is one too, the finished keys stay
a subset of the participant keys at commit. -/
theorem finished_subset_participants (room : Room) (uid : String)
    (hsub : ∀ k ∈ keys room.finished_users, k ∈ keys room.participants)
    (hmem : uid ∈ keys room.participants) :
    ∃ room' : Room,
      (Ws.update_in_transaction (some room) uid).2 = some room' ∧
      (∀ k, k ∈ keys room'.finished_users ↔ k ∈ keys room.finished_users ∨ k = uid) ∧
      room'.participants = room.participants ∧
      ∀ k ∈ keys room'.finished_users, k ∈ keys room'.participants := by
  refine ⟨{ room with finished_users := upsert uid true room.finished_users },
    rfl, ?_, rfl, ?_⟩
  · intro k
    rw [show ({ room with finished_users := upsert uid true room.finished_users } :
        Room).finished_users = upsert uid true room.finished_users from rfl]
    rw [keys_upsert]
    split
    · rename_i hm
      constructor
      · exact fun h => Or.inl h
      · rintro (h | h)
        · exact h
        · exact h ▸ hm
    · simp [or_comm]
  · intro k hk
    rw [show ({ room with finished_users := upsert uid true room.finished_users } :
        Room).finished_users = upsert uid true room.finished_users from rfl] at hk
    rw [keys_upsert] at hk
    split at hk
    · exact hsub k hk
    · rcases List.mem_append.mp hk with h | h
      · exact hsub k h
      · rw [List.mem_singleton.mp h]
        exact hmem

/-- Witness for C8: participant `u2` of the full sample room (no one finished
yet) finishes; afterwards the finished keys are exactly `u2` and lie inside
the participant keys. -/
theorem finished_subset_participants_witness :
    ∃ room' : Room,
      (Ws.update_in_transaction (some sampleRoom5) "u2").2 = some room' ∧
      (∀ k, k ∈ keys room'.finished_users ↔ k ∈ keys sampleRoom5.finished_users ∨ k = "u2") ∧
      room'.participants = sampleRoom5.participants ∧
      ∀ k ∈ keys room'.finished_users, k ∈ keys room'.participants :=
  finished_subset_participants sampleRoom5 "u2" (by decide) (by decide)

/-- Counterexample to C8 as stated: an identity that is not a participant
calls finish-step on an existing one-participant room; the transaction
commits a finished-users map whose key set is not a subset of the
participant keys. -/
theorem finished_subset_counterexample :
    (Ws.update_in_transaction (some sampleRoom1) "intruder").2 =
      some { sampleRoom1 with finished_users := [("intruder", true)] } ∧
    ¬(∀ k ∈ keys [(("intruder" : String), true)], k ∈ keys sampleRoom1.participants) := by
  exact ⟨rfl, by decide⟩

/-- The id-generation loop only ever returns an id with no existing document,
and that id is the decimal string of one of the random draws. -/
theorem gen_room_id_spec (store : RoomStore) (draws : List Nat) (room_id : String)
    (h : Api.gen_room_id store draws = some room_id) :
    alookup room_id store = none ∧ ∃ n ∈ draws, room_id = toString n := by
  induction draws with
  | nil => cases h
  | cons n rest ih =>
    simp only [Api.gen_room_id] at h
    by_cases hn : (alookup (toString n) store).isNone
    · rw [if_pos hn] at h
      cases h
      exact ⟨Option.isNone_iff_eq_none.mp hn, n, List.mem_cons_self n rest, rfl⟩
    · rw [if_neg hn] at h
      obtain ⟨hnone, m, hm, hms⟩ := ih h
      exact ⟨hnone, m, List.mem_cons_of_mem n hm, hms⟩

/-- Claim C5 (amended).  With a non-empty username and an id draw that
terminates the generation loop, create writes exactly one new document —
under a previously absent id that is the decimal string of a 5-digit draw —
whose fields are `participants = {identity: name}`, `creator_uid = identity`
and `createdAt = now`, with no `status` field (and no topic, duration or
finished-users fields), leaves every other document untouched, and returns
the new id. -/
theorem create_room_spec (store : RoomStore) (username uid : String)
    (draws : List Nat) (now : Nat) (room_id : String)
    (hname : username ≠ "")
    (hgen : Api.gen_room_id store draws = some room_id)
    (hdigits : ∀ n ∈ draws, 10000 ≤ n ∧ n ≤ 99999) :
    Api.create_room store username uid draws now =
      (.created room_id, upsert room_id (Api.newRoom uid username now) store) ∧
    alookup room_id store = none ∧
    (∃ n, 10000 ≤ n ∧ n ≤ 99999 ∧ room_id = toString n) ∧
    alookup room_id (Api.create_room store username uid draws now).2 =
      some (Api.newRoom uid username now) ∧
    (∀ rid, rid ≠ room_id →
      alookup rid (Api.create_room store username uid draws now).2 = alookup rid store) ∧
    (Api.newRoom uid username now).participants = [(uid, username)] ∧
    (Api.newRoom uid username now).creator_uid = uid ∧
    (Api.newRoom uid username now).createdAt = now ∧
    (Api.newRoom uid username now).status = none := by
  obtain ⟨hfresh, n, hn, hns⟩ := gen_room_id_spec store draws room_id hgen
  have hrun : Api.create_room store username uid draws now =
      (.created room_id, upsert room_id (Api.newRoom uid username now) store) := by
    simp only [Api.create_room]
    rw [if_neg hname, hgen]
  refine ⟨hrun, hfresh, ⟨n, (hdigits n hn).1, (hdigits n hn).2, hns⟩, ?_, ?_, rfl, rfl, rfl, rfl⟩
  · rw [hrun]
    exact alookup_upsert_self room_id _ store
  · intro rid hrid
    rw [hrun]
    exact alookup_upsert_ne hrid _ store

/-- Witness for C5: creating a room in an empty store with draw 12345 writes
the single expected document and returns id `"12345"`. -/
theorem create_room_spec_witness :
    Api.create_room [] "Alice" "u1" [12345] 7 =
      (.created "12345", upsert "12345" (Api.newRoom "u1" "Alice" 7) []) ∧
    alookup "12345" ([] : RoomStore) = none ∧
    (∃ n, 10000 ≤ n ∧ n ≤ 99999 ∧ "12345" = toString n) ∧
    alookup "12345" (Api.create_room [] "Alice" "u1" [12345] 7).2 =
      some (Api.newRoom "u1" "Alice" 7) ∧
    (∀ rid, rid ≠ "12345" →
      alookup rid (Api.create_room [] "Alice" "u1" [12345] 7).2 =
        alookup rid ([] : RoomStore)) ∧
    (Api.newRoom "u1" "Alice" 7).participants = [("u1", "Alice")] ∧
    (Api.newRoom "u1" "Alice" 7).creator_uid = "u1" ∧
    (Api.newRoom "u1" "Alice" 7).createdAt = 7 ∧
    (Api.newRoom "u1" "Alice" 7).status = none :=
  create_room_spec [] "Alice" "u1" [12345] 7 "12345" (by decide) rfl
    (by intro n hn; rw [List.mem_singleton.mp hn]; omega)

/-- Counterexample to C5 as stated: the document written by create carries no
`status` field at all, not `status = waiting` — only `update_room_settings`
ever writes a status (`'discussing'`). -/
theorem create_room_status_counterexample :
    (Api.create_room [] "Alice" "u1" [12345] 7).1 = .created "12345" ∧
    (alookup "12345" (Api.create_room [] "Alice" "u1" [12345] 7).2).map Room.status =
      some none ∧
    some (none : Option String) ≠ some (some "waiting") := by
  refine ⟨rfl, rfl, by simp⟩

/-- Claim C9 (amended).  Create validates only the display name: an empty
name fails with `invalidInput` and writes nothing, whatever the identity is;
the caller identity is not validated, and for any non-empty name the
operation never reports `invalidInput` — in particular an empty identity is
accepted. -/
theorem create_room_validation (store : RoomStore) (uid username : String)
    (draws : List Nat) (now : Nat) :
    (Api.create_room store "" uid draws now = (.invalidInput, store)) ∧
    (username ≠ "" →
      (Api.create_room store username uid draws now).1 ≠ .invalidInput) := by
  refine ⟨?_, ?_⟩
  · simp [Api.create_room]
  · intro hname
    simp only [Api.create_room]
    rw [if_neg hname]
    cases hg : Api.gen_room_id store draws with
    | none => simp
    | some rid => simp

/-- Witness for C9: an empty name is rejected and writes nothing even with a
non-empty identity, while the name "Alice" is never rejected as invalid even
with the empty identity. -/
theorem create_room_validation_witness :
    (Api.create_room [] "" "u1" [10000] 0 = (.invalidInput, [])) ∧
    (Api.create_room [] "Alice" "" [10000] 0).1 ≠ .invalidInput :=
  ⟨(create_room_validation [] "u1" "" [10000] 0).1,
   (create_room_validation [] "" "Alice" [10000] 0).2 (by decide)⟩

/-- Counterexample to C9 as stated: a create request with a non-empty name
and the empty string as caller identity does not fail with `invalidInput`;
it creates the room, storing the empty identity as creator and participant
key. -/
theorem create_room_empty_identity_counterexample :
    Api.create_room [] "Alice" "" [11111] 0 =
      (.created "11111", [("11111", Api.newRoom "" "Alice" 0)]) ∧
    (Api.CreateResult.created "11111" ≠ .invalidInput) ∧
    ([("11111", Api.newRoom "" "Alice" 0)] : RoomStore) ≠ [] := by
  refine ⟨rfl, by simp, by simp⟩

/-- Witness for C1: a concrete six-operation sequence (five joins, one
re-join) on a fresh room stays within the cap; a sixth identity against the
full sample room is rejected with the document unchanged; `u2` re-joining
the full sample room succeeds with the count still 5. -/
theorem participants_cap_witness :
    roomSize (applyOps (some (Api.newRoom "u1" "Alice" 0))
      [.join "u2" "B", .join "u3" "C", .join "u4" "D", .join "u5" "E",
       .join "u6" "F", .join "u2" "B2"]) ≤ 5 ∧
    Api.update_in_transaction (some sampleRoom5) "u6" "Zoe" = (.full, some sampleRoom5) ∧
    ((Api.update_in_transaction (some sampleRoom5) "u2" "B2").1 = .ok ∧
      roomSize (Api.update_in_transaction (some sampleRoom5) "u2" "B2").2 =
        sampleRoom5.participants.length) :=
  ⟨participants_cap.1 "u1" "Alice" 0 _,
   participants_cap.2.1 sampleRoom5 "u6" "Zoe" rfl rfl,
   participants_cap.2.2 sampleRoom5 "u2" "B2" rfl⟩
